import Mathlib

/-!
Verification of the integral evaluation engine of the `mess` package
(`mess/integrals.py`): overlap, kinetic, nuclear-attraction and
electron-repulsion integrals over contracted Gaussian basis functions.

The Python source is shallowly embedded: JAX arrays indexed by enumerated
index lists become Lean lists of index tuples, vectorized maps become
`List.map`/`Finset.sum`, `segment_sum` becomes an explicit grouped sum,
and scatter updates (`A.at[...].set(...)`) become folds of
`Function.update`.  Machine floats are modelled by real numbers.

Helpers from `mess` modules that are not part of the integral engine
sources (`mess/special.py`, `mess/primitive.py`, `mess/basis.py`,
`mess/units.py`) are modelled from the specification; each such
definition carries a doc comment starting with `Modelled from the spec`.
-/

namespace Mess

/-- Modelled from the spec: `mess/units.py` is not among the engine sources;
`LMAX` is the fixed maximum angular momentum; the precomputed binomial-factor
table enumerates `l1, l2` up to `4`, so `LMAX = 4`. -/
def LMAX : ℕ := 4

/-- Modelled from the spec: `mess/special.py` is missing; binomial coefficient,
`0` when `k > n` or `k < 0`, the standard combinatorial value otherwise. -/
noncomputable def binom (n k : ℤ) : ℝ :=
  if k < 0 ∨ n < k then 0 else (Nat.choose n.toNat k.toNat : ℝ)

/-- Double factorial on naturals: `n!! = n * (n-2) * (n-4) * ...`. -/
def factorial2_nat : ℕ → ℕ
  | 0 => 1
  | 1 => 1
  | n + 2 => (n + 2) * factorial2_nat n

/-- Modelled from the spec: `mess/special.py` is missing; double factorial,
defined as `1` for `n ≤ 0`. -/
noncomputable def factorial2 (n : ℤ) : ℝ :=
  if n ≤ 0 then 1 else (factorial2_nat n.toNat : ℝ)

/-- Modelled from the spec: `mess/special.py` is missing; factorial with negative
arguments clamped to the defined convention (`1`), never raising. -/
noncomputable def factorial (n : ℤ) : ℝ :=
  if n ≤ 0 then 1 else (Nat.factorial n.toNat : ℝ)

/-- Factorial on naturals, cast to the reals. -/
noncomputable def factorialN (n : ℕ) : ℝ := (Nat.factorial n : ℝ)

/-- Modelled from the spec: `mess/special.py` is missing; `binom_factor l1 l2 a b maxk k`
is the `k`-th entry of the length-`maxk+1` vector of combinatorial
coefficients expanding the product of two shifted monomials
`(x+a)^l1 * (x+b)^l2` in powers of `x`: the coefficient of `x^k` is
`∑_{s+t=k} binom l1 s * binom l2 t * a^(l1-s) * b^(l2-t)`. -/
noncomputable def binom_factor (l1 l2 : ℤ) (a b : ℝ) (maxk : ℕ) (k : ℕ) : ℝ :=
  if k ≤ maxk then
    ∑ s ∈ Finset.range (k + 1),
      binom l1 s * binom l2 (k - s : ℕ) *
        a ^ (l1 - s).toNat * b ^ (l2 - (k - s : ℕ)).toNat
  else 0

/-- Modelled from the spec: `mess/special.py` is missing; the incomplete-gamma-derived
auxiliary function `gammanu n x = ∫_0^1 t^(2n) * exp (-x * t^2) dt`. -/
noncomputable def gammanu (n : ℕ) (x : ℝ) : ℝ :=
  ∫ t in (0 : ℝ)..1, t ^ (2 * n) * Real.exp (-x * t ^ 2)

/-- An un-normalized Cartesian Gaussian primitive: center, exponent,
angular momentum triple and a scalar norm factor.  Angular momenta are
integers so that the transient lowering by two in the kinetic kernel can
be represented. -/
structure Primitive where
  center : Fin 3 → ℝ
  alpha : ℝ
  lmn : Fin 3 → ℤ
  norm : ℝ

noncomputable instance : Inhabited Primitive :=
  ⟨⟨fun _ => 0, 1, fun _ => 0, 1⟩⟩

/-- Modelled from the spec: `mess/primitive.py` is missing; the Gaussian product rule.
The product of two Gaussians is a Gaussian at the exponent-weighted average
center with summed exponent, scaled by a prefactor depending on the
exponents and the squared distance between the original centers. -/
noncomputable def product (a b : Primitive) : Primitive where
  center := fun ax => (a.alpha * a.center ax + b.alpha * b.center ax) / (a.alpha + b.alpha)
  alpha := a.alpha + b.alpha
  lmn := fun ax => a.lmn ax + b.lmn ax
  norm := a.norm * b.norm *
    Real.exp (-(a.alpha * b.alpha / (a.alpha + b.alpha)) *
      ∑ ax, (a.center ax - b.center ax) ^ 2)

/-- The fixed index list `[(s, t) for s in range(LMAX+1) for t in range(2*s+1)]`
enumerated inside `_overlap_primitives`. -/
def overlap_idx : List (ℕ × ℕ) :=
  (List.range (LMAX + 1)).flatMap fun s =>
    (List.range (2 * s + 1)).map fun t => (s, t)

/-- One (possibly masked) term of the per-axis overlap sum of
`_overlap_primitives`: the combinatorial term is computed for every
enumerated pair `(s, t)` and multiplied by the mask
`(2*s - i ≤ t) & (t ≤ j)`, contributing `0` when the mask fails. -/
noncomputable def overlap_axis_term (palpha : ℝ) (i j : ℤ) (a b : ℝ) (st : ℕ × ℕ) : ℝ :=
  if 2 * (st.1 : ℤ) - i ≤ (st.2 : ℤ) ∧ (st.2 : ℤ) ≤ j then
    binom i (2 * (st.1 : ℤ) - (st.2 : ℤ)) * binom j (st.2 : ℤ) *
      a ^ (i - (2 * (st.1 : ℤ) - (st.2 : ℤ))).toNat * b ^ (j - (st.2 : ℤ)).toNat *
      factorial2 (2 * (st.1 : ℤ) - 1) / (2 * palpha) ^ st.1
  else 0

/-- The per-axis sum `overlap_axis` of `_overlap_primitives`. -/
noncomputable def overlap_axis (palpha : ℝ) (i j : ℤ) (a b : ℝ) : ℝ :=
  (overlap_idx.map (overlap_axis_term palpha i j a b)).sum

/-- The overlap primitive kernel `_overlap_primitives`. -/
noncomputable def overlap_primitives (a b : Primitive) : ℝ :=
  let p := product a b
  (Real.pi / p.alpha) ^ (1.5 : ℝ) * p.norm *
    ∏ ax : Fin 3,
      overlap_axis p.alpha (a.lmn ax) (b.lmn ax)
        (p.center ax - a.center ax) (p.center ax - b.center ax)

/-- `offset_qn` of `_kinetic_primitives`: shift one axis of `b`'s angular
momentum, keeping every other field. -/
noncomputable def offset_qn (b : Primitive) (ax : Fin 3) (offset : ℤ) : Primitive :=
  { b with lmn := Function.update b.lmn ax (b.lmn ax + offset) }

/-- The kinetic primitive kernel `_kinetic_primitives`, expressed through
three groups of overlap evaluations. -/
noncomputable def kinetic_primitives (a b : Primitive) : ℝ :=
  let t0 := b.alpha * (2 * ((∑ ax, b.lmn ax : ℤ) : ℝ) + 3) * overlap_primitives a b
  let t1 := ∑ ax : Fin 3, overlap_primitives a (offset_qn b ax 2)
  let t2 := ∑ ax : Fin 3,
    ((b.lmn ax : ℝ) * ((b.lmn ax : ℝ) - 1)) * overlap_primitives a (offset_qn b ax (-2))
  t0 - 2 * b.alpha ^ 2 * t1 - 0.5 * t2

/-- The index triples enumerated by `build_gindex`:
`(i, r, u)` with `i ≤ LMAX`, `r ≤ i/2`, `u ≤ (i - 2r)/2`. -/
def gindex : List (ℕ × ℕ × ℕ) :=
  (List.range (LMAX + 1)).flatMap fun i =>
    (List.range (i / 2 + 1)).flatMap fun r =>
      (List.range ((i - 2 * r) / 2 + 1)).map fun u => (i, r, u)

/-- One (possibly masked) term of the `g_term` sum inside
`_nuclear_primitives`, for segment `seg`: the combinatorial value is
accumulated into segment `index = i - 2r - u` and masked to `0` when
`index > l1 + l2`. -/
noncomputable def g_term_entry (epsilon : ℝ) (l1 l2 : ℤ) (pa pb cp : ℝ)
    (seg : ℕ) (iru : ℕ × ℕ × ℕ) : ℝ :=
  let i := iru.1
  let r := iru.2.1
  let u := iru.2.2
  let index := i - 2 * r - u
  if index = seg then
    (if (index : ℤ) ≤ l1 + l2 then
      (-1 : ℝ) ^ (i + u) * binom_factor l1 l2 pa pb LMAX i * factorialN i *
        cp ^ (index - u) * epsilon ^ (r + u) /
        (factorialN r * factorialN u * factorialN (index - u))
    else 0)
  else 0

/-- The axis Hermite-coefficient vector `g_term` of `_nuclear_primitives`,
as a function from the segment id to the segment-summed value. -/
noncomputable def g_term (epsilon : ℝ) (l1 l2 : ℤ) (pa pb cp : ℝ) (seg : ℕ) : ℝ :=
  (gindex.map (g_term_entry epsilon l1 l2 pa pb cp seg)).sum

/-- The nuclear-attraction primitive kernel `_nuclear_primitives` for a
single nucleus at position `c`. -/
noncomputable def nuclear_primitives (a b : Primitive) (c : Fin 3 → ℝ) : ℝ :=
  let p := product a b
  let pa := fun ax => p.center ax - a.center ax
  let pb := fun ax => p.center ax - b.center ax
  let pc := fun ax => p.center ax - c ax
  let epsilon := 1 / (4 * p.alpha)
  let G := fun (ax : Fin 3) =>
    g_term epsilon (a.lmn ax) (b.lmn ax) (pa ax) (pb ax) (pc ax);
  -2 * Real.pi / p.alpha * p.norm *
    ∑ x ∈ Finset.range (LMAX + 1), ∑ y ∈ Finset.range (LMAX + 1),
      ∑ z ∈ Finset.range (LMAX + 1),
        G 0 x * G 1 y * G 2 z * gammanu (x + y + z) (p.alpha * ∑ ax, pc ax * pc ax)

/-- The index 5-tuples enumerated by `build_cindex`:
`(i1, i2, r1, r2, u)` with `i1, i2 ≤ 2*LMAX`, `r1 ≤ i1/2`, `r2 ≤ i2/2`,
`u ≤ (i1+i2)/2 - r1 - r2`. -/
def cindex : List (ℕ × ℕ × ℕ × ℕ × ℕ) :=
  (List.range (2 * LMAX + 1)).flatMap fun i1 =>
    (List.range (2 * LMAX + 1)).flatMap fun i2 =>
      (List.range (i1 / 2 + 1)).flatMap fun r1 =>
        (List.range (i2 / 2 + 1)).flatMap fun r2 =>
          (List.range ((i1 + i2) / 2 - r1 - r2 + 1)).map fun u => (i1, i2, r1, r2, u)

/-- The combinatorial coefficient `H` of `_eri_primitives`.  Following the
source, the denominator carries the `(4*gamma)^(i-r)` factor (matching the
reported `H_L` expressions) rather than the `(4*gamma)^(2r-i)`-style factor
shown in THO Eq. 3.5. -/
noncomputable def H (l1 l2 : ℤ) (a b : ℝ) (i r : ℕ) (gamma : ℝ) : ℝ :=
  let u := factorialN i * binom_factor l1 l2 a b (2 * LMAX) i
  let v := factorialN r * factorialN (i - 2 * r) * (4 * gamma) ^ (i - r)
  u / v

/-- One (possibly masked) term of the `c_term` sum inside `_eri_primitives`
for segment `seg`: accumulated into segment `index = i1 + i2 - 2(r1+r2) - u`
and masked to `0` unless `i1 ≤ la + lb` and `i2 ≤ lc + ld`. -/
noncomputable def c_term_entry (palpha qalpha delta : ℝ) (la lb lc ld : ℤ)
    (pa pb qc qd qp : ℝ) (seg : ℕ) (t : ℕ × ℕ × ℕ × ℕ × ℕ) : ℝ :=
  let i1 := t.1
  let i2 := t.2.1
  let r1 := t.2.2.1
  let r2 := t.2.2.2.1
  let u := t.2.2.2.2
  let index := i1 + i2 - 2 * (r1 + r2) - u
  if index = seg then
    (if (i1 : ℤ) ≤ la + lb ∧ (i2 : ℤ) ≤ lc + ld then
      H la lb pa pb i1 r1 palpha * H lc ld qc qd i2 r2 qalpha *
        ((-1 : ℝ) ^ (i2 + u) * factorialN (index + u) * qp ^ (index - u)) /
        (factorialN u * factorialN (index - u) * delta ^ index)
    else 0)
  else 0

/-- The axis coefficient vector `c_term` of `_eri_primitives`, as a function
from the segment id to the segment-summed value. -/
noncomputable def c_term (palpha qalpha delta : ℝ) (la lb lc ld : ℤ)
    (pa pb qc qd qp : ℝ) (seg : ℕ) : ℝ :=
  (cindex.map (c_term_entry palpha qalpha delta la lb lc ld pa pb qc qd qp seg)).sum

/-- The electron-repulsion primitive kernel `_eri_primitives`. -/
noncomputable def eri_primitives (a b c d : Primitive) : ℝ :=
  let p := product a b
  let q := product c d
  let pa := fun ax => p.center ax - a.center ax
  let pb := fun ax => p.center ax - b.center ax
  let qc := fun ax => q.center ax - c.center ax
  let qd := fun ax => q.center ax - d.center ax
  let qp := fun ax => q.center ax - p.center ax
  let delta := 1 / (4 * p.alpha) + 1 / (4 * q.alpha)
  let C := fun (ax : Fin 3) =>
    c_term p.alpha q.alpha delta (a.lmn ax) (b.lmn ax) (c.lmn ax) (d.lmn ax)
      (pa ax) (pb ax) (qc ax) (qd ax) (qp ax)
  2 * Real.pi ^ 2 / (p.alpha * q.alpha) * Real.sqrt (Real.pi / (p.alpha + q.alpha)) *
    p.norm * q.norm *
    ∑ x ∈ Finset.range (4 * LMAX + 1), ∑ y ∈ Finset.range (4 * LMAX + 1),
      ∑ z ∈ Finset.range (4 * LMAX + 1),
        C 0 x * C 1 y * C 2 z * gammanu (x + y + z) ((∑ ax, qp ax * qp ax) / (4 * delta))

lemma mem_gindex {i r u : ℕ} :
    (i, r, u) ∈ gindex ↔ i ≤ LMAX ∧ r ≤ i / 2 ∧ u ≤ (i - 2 * r) / 2 := by
  simp only [gindex, List.mem_flatMap, List.mem_map, List.mem_range, Prod.mk.injEq]
  constructor
  · rintro ⟨i', hi, r', hr, u', hu, rfl, rfl, rfl⟩
    omega
  · rintro ⟨hi, hr, hu⟩
    exact ⟨i, by omega, r, by omega, u, by omega, rfl, rfl, rfl⟩

lemma mem_cindex {i1 i2 r1 r2 u : ℕ} :
    (i1, i2, r1, r2, u) ∈ cindex ↔
      i1 ≤ 2 * LMAX ∧ i2 ≤ 2 * LMAX ∧ r1 ≤ i1 / 2 ∧ r2 ≤ i2 / 2 ∧
        u ≤ (i1 + i2) / 2 - r1 - r2 := by
  simp only [cindex, List.mem_flatMap, List.mem_map, List.mem_range, Prod.mk.injEq]
  constructor
  · rintro ⟨a, ha, b, hb, c, hc, d, hd, e, he, rfl, rfl, rfl, rfl, rfl⟩
    omega
  · rintro ⟨h1, h2, h3, h4, h5⟩
    exact ⟨i1, by omega, i2, by omega, r1, by omega, r2, by omega, u, by omega,
      rfl, rfl, rfl, rfl, rfl⟩

lemma list_sum_map_filter_of_zero {α : Type} (l : List α) (q : α → Bool) (f : α → ℝ)
    (h : ∀ x ∈ l, q x = false → f x = 0) :
    ((l.filter q).map f).sum = (l.map f).sum := by
  induction l with
  | nil => simp
  | cons a l ih =>
    have ha := h a (List.mem_cons_self a l)
    cases hq : q a with
    | true =>
      simp only [List.filter_cons, hq, if_true, List.map_cons, List.sum_cons]
      rw [ih fun x hx => h x (List.mem_cons_of_mem a hx)]
    | false =>
      simp only [List.filter_cons, hq, Bool.false_eq_true, if_false, List.map_cons,
        List.sum_cons, ha hq, zero_add]
      exact ih fun x hx => h x (List.mem_cons_of_mem a hx)

/-- Claim C10: every `gindex` triple `(i, r, u)` satisfies
`0 ≤ i - 2r - u ≤ LMAX`, and every `cindex` 5-tuple satisfies
`0 ≤ i1 + i2 - 2(r1 + r2) - u ≤ 4*LMAX`; hence the segment ids used by the
segment-sum reductions in the nuclear `g_term` (with `LMAX + 1` segments)
and the ERI `c_term` (with `4*LMAX + 1` segments) are always in range, so
no combinatorial term is dropped by an out-of-range segment id. -/
theorem C10_segment_ids_in_range :
    (∀ t ∈ gindex, 0 ≤ (t.1 : ℤ) - 2 * t.2.1 - t.2.2 ∧
      (t.1 : ℤ) - 2 * t.2.1 - t.2.2 ≤ (LMAX : ℤ) ∧
      t.1 - 2 * t.2.1 - t.2.2 < LMAX + 1) ∧
    (∀ t ∈ cindex, 0 ≤ (t.1 : ℤ) + t.2.1 - 2 * ((t.2.2.1 : ℤ) + t.2.2.2.1) - t.2.2.2.2 ∧
      (t.1 : ℤ) + t.2.1 - 2 * ((t.2.2.1 : ℤ) + t.2.2.2.1) - t.2.2.2.2 ≤ 4 * (LMAX : ℤ) ∧
      t.1 + t.2.1 - 2 * (t.2.2.1 + t.2.2.2.1) - t.2.2.2.2 < 4 * LMAX + 1) := by
  constructor
  · rintro ⟨i, r, u⟩ ht
    rw [mem_gindex] at ht
    refine ⟨?_, ?_, ?_⟩ <;> simp only [] <;> omega
  · rintro ⟨i1, i2, r1, r2, u⟩ ht
    rw [mem_cindex] at ht
    refine ⟨?_, ?_, ?_⟩ <;> simp only [] <;> omega

theorem C10_segment_ids_in_range_witness :
    ((2, 1, 0) ∈ gindex) ∧
      (0 ≤ ((2 : ℕ) : ℤ) - 2 * (1 : ℕ) - (0 : ℕ) ∧
        ((2 : ℕ) : ℤ) - 2 * (1 : ℕ) - (0 : ℕ) ≤ (LMAX : ℤ) ∧
        (2 : ℕ) - 2 * 1 - 0 < LMAX + 1) :=
  ⟨by decide, C10_segment_ids_in_range.1 (2, 1, 0) (by decide)⟩

/-- Claim C4: in the ERI primitive kernel, the combinatorial coefficient `H`
equals `factorial i * binom_factor l1 l2 a b (2*LMAX) i` divided by
`factorial r * factorial (i - 2r) * (4*gamma)^(i-r)` — equivalently, it is
`factorial i * binom_factor  ... i / (factorial r * factorial (i - 2r))`
multiplied by `(4*gamma)^(r-i)` — for every index pair `(i1, r1)` (and by
the same token `(i2, r2)`) enumerated by `cindex`; the denominator exponent
is `i - r`, not the literature's `2r - i` form. -/
theorem C4_H_denominator (l1 l2 : ℤ) (a b gamma : ℝ) (t : ℕ × ℕ × ℕ × ℕ × ℕ)
    (ht : t ∈ cindex) :
    H l1 l2 a b t.1 t.2.2.1 gamma =
      factorialN t.1 * binom_factor l1 l2 a b (2 * LMAX) t.1 /
        (factorialN t.2.2.1 * factorialN (t.1 - 2 * t.2.2.1) *
          (4 * gamma) ^ (t.1 - t.2.2.1)) ∧
    H l1 l2 a b t.1 t.2.2.1 gamma =
      factorialN t.1 * binom_factor l1 l2 a b (2 * LMAX) t.1 /
        (factorialN t.2.2.1 * factorialN (t.1 - 2 * t.2.2.1)) *
        (4 * gamma) ^ ((t.2.2.1 : ℤ) - (t.1 : ℤ)) := by
  obtain ⟨i1, i2, r1, r2, u⟩ := t
  rw [mem_cindex] at ht
  have hr : r1 ≤ i1 := by omega
  refine ⟨rfl, ?_⟩
  have h1 : ((r1 : ℤ) - (i1 : ℤ)) = -((i1 - r1 : ℕ) : ℤ) := by omega
  rw [h1, zpow_neg, zpow_natCast]
  simp only [H]
  rw [div_eq_mul_inv, div_eq_mul_inv, mul_inv]
  ring

theorem C4_H_denominator_witness :
    ((2, 0, 1, 0, 0) ∈ cindex) ∧
      H 1 1 1 1 2 1 1 =
        factorialN 2 * binom_factor 1 1 1 1 (2 * LMAX) 2 /
          (factorialN 1 * factorialN (2 - 2 * 1) * (4 * 1) ^ (2 - 1)) :=
  ⟨by decide, (C4_H_denominator 1 1 1 1 1 (2, 0, 1, 0, 0) (by decide)).1⟩

/-- Claim C5: the kinetic primitive kernel equals
`b.alpha * (2 * sum b.lmn + 3) * S(a,b)` minus `2 * b.alpha^2` times the sum
over the three axes of the overlaps with `b`'s angular momentum raised by 2,
minus `0.5` times the sum over the three axes of
`lmn_ax * (lmn_ax - 1) * S(a, b lowered by 2)`; and each lowered term
contributes exactly zero whenever the axis angular momentum is below 2. -/
theorem C5_kinetic_decomposition (a b : Primitive) :
    kinetic_primitives a b =
      b.alpha * (2 * ((∑ ax, b.lmn ax : ℤ) : ℝ) + 3) * overlap_primitives a b
        - 2 * b.alpha ^ 2 * (∑ ax : Fin 3, overlap_primitives a (offset_qn b ax 2))
        - 0.5 * ∑ ax : Fin 3,
            ((b.lmn ax : ℝ) * ((b.lmn ax : ℝ) - 1)) *
              overlap_primitives a (offset_qn b ax (-2)) ∧
    ∀ ax : Fin 3, 0 ≤ b.lmn ax → b.lmn ax < 2 →
      ((b.lmn ax : ℝ) * ((b.lmn ax : ℝ) - 1)) *
          overlap_primitives a (offset_qn b ax (-2)) = 0 := by
  refine ⟨rfl, ?_⟩
  intro ax h0 h2
  have h : b.lmn ax = 0 ∨ b.lmn ax = 1 := by omega
  rcases h with h | h <;> rw [h] <;> push_cast <;> ring

theorem C5_kinetic_decomposition_witness :
    (0 ≤ (default : Primitive).lmn 0 ∧ (default : Primitive).lmn 0 < 2) ∧
      (((default : Primitive).lmn 0 : ℝ) * (((default : Primitive).lmn 0 : ℝ) - 1)) *
          overlap_primitives default (offset_qn default 0 (-2)) = 0 :=
  ⟨⟨by norm_num [default], by norm_num [default]⟩,
    (C5_kinetic_decomposition default default).2 0 (by norm_num [default])
      (by norm_num [default])⟩

/-- Claim C7: in the overlap per-axis sum, exactly the enumerated expansion
index pairs `(s, t)` with `2s - t ≤ i` and `t ≤ j` contribute (the sum is
unchanged by restricting to them), every pair violating this mask contributes
exactly `0`, and the kernel result is `(pi/alpha)^1.5` times the product-rule
prefactor times the product of the three axis sums. -/
theorem C7_overlap_masking (palpha : ℝ) (i j : ℤ) (a b : ℝ) (a' b' : Primitive) :
    overlap_axis palpha i j a b =
      ((overlap_idx.filter fun st =>
          decide (2 * (st.1 : ℤ) - (st.2 : ℤ) ≤ i ∧ (st.2 : ℤ) ≤ j)).map
        (overlap_axis_term palpha i j a b)).sum ∧
    (∀ st ∈ overlap_idx, ¬(2 * (st.1 : ℤ) - (st.2 : ℤ) ≤ i ∧ (st.2 : ℤ) ≤ j) →
      overlap_axis_term palpha i j a b st = 0) ∧
    overlap_primitives a' b' =
      (Real.pi / (product a' b').alpha) ^ (1.5 : ℝ) * (product a' b').norm *
        ∏ ax : Fin 3,
          overlap_axis (product a' b').alpha (a'.lmn ax) (b'.lmn ax)
            ((product a' b').center ax - a'.center ax)
            ((product a' b').center ax - b'.center ax) := by
  have hzero : ∀ st ∈ overlap_idx, ¬(2 * (st.1 : ℤ) - (st.2 : ℤ) ≤ i ∧ (st.2 : ℤ) ≤ j) →
      overlap_axis_term palpha i j a b st = 0 := by
    intro st _ hmask
    rw [overlap_axis_term, if_neg]
    intro hC
    exact hmask ⟨by omega, hC.2⟩
  refine ⟨?_, hzero, rfl⟩
  rw [overlap_axis]
  symm
  apply list_sum_map_filter_of_zero
  intro st hst hq
  apply hzero st hst
  intro hC
  rw [decide_eq_false_iff_not] at hq
  exact hq hC

theorem C7_overlap_masking_witness :
    ((0, 0) ∈ overlap_idx) ∧
      ¬(2 * (((0, 0) : ℕ × ℕ).1 : ℤ) - (((0, 0) : ℕ × ℕ).2 : ℤ) ≤ (-1 : ℤ) ∧
        (((0, 0) : ℕ × ℕ).2 : ℤ) ≤ (0 : ℤ)) ∧
      overlap_axis_term 1 (-1) 0 1 1 (0, 0) = 0 :=
  ⟨by decide, by decide,
    (C7_overlap_masking 1 (-1) 0 1 1 default default).2.1 (0, 0) (by decide) (by decide)⟩

/-- Modelled from the spec: `mess/basis.py` is missing; one contracted orbital, an
ordered list of primitives with matching contraction coefficients. -/
structure Orbital where
  coefficients : List ℝ
  primitives : List Primitive

/-- Modelled from the spec: the `Structure` type is external; a molecular structure — ordered atomic numbers
and positions, consumed read-only by the nuclear-attraction kernel. -/
structure Structure where
  atomic_number : List ℕ
  position : List (Fin 3 → ℝ)

/-- Modelled from the spec: `mess/basis.py` is missing; an ordered collection of
orbitals plus the molecular structure; the flattened primitive list,
flattened coefficient list and owning-orbital index are derived below. -/
structure Basis where
  orbitals : List Orbital
  structure' : Structure

/-- Number of orbitals (basis functions). -/
def Basis.num_orbitals (b : Basis) : ℕ := b.orbitals.length

/-- The concatenated (flattened) primitive list. -/
def Basis.prim_list (b : Basis) : List Primitive := b.orbitals.flatMap Orbital.primitives

/-- The concatenated (flattened) contraction-coefficient list. -/
def Basis.coef_list (b : Basis) : List ℝ := b.orbitals.flatMap Orbital.coefficients

/-- Total number of primitives in the flattened list. -/
def Basis.num_primitives (b : Basis) : ℕ := b.prim_list.length

/-- The owning-orbital index: position `i` of the flattened primitive list
is owned by orbital `orbital_index[i]`. -/
def Basis.orbital_index (b : Basis) : List ℕ :=
  (List.range b.orbitals.length).flatMap fun o =>
    List.replicate ((b.orbitals.getD o ⟨[], []⟩).primitives.length) o

/-- The owning orbital of flattened primitive `i`. -/
def Basis.orb_of (b : Basis) (i : ℕ) : ℕ := b.orbital_index.getD i 0

/-- The flattened contraction coefficient of primitive `i`. -/
noncomputable def Basis.coef (b : Basis) (i : ℕ) : ℝ := b.coef_list.getD i 0

/-- The flattened primitive `i`. -/
noncomputable def Basis.prim (b : Basis) (i : ℕ) : Primitive := b.prim_list.getD i default

/-- Modelled from the spec: `mess/special.py` is missing; `allpairs_indices n`
enumerates the unique unordered index pairs of `range n` (the
lower-triangular pairs `(i, j)` with `j ≤ i < n`). -/
def allpairs_indices (n : ℕ) : List (ℕ × ℕ) :=
  (List.range n).flatMap fun i => (List.range (i + 1)).map fun j => (i, j)

/-- Modelled from the spec: `mess/basis.py` is missing; `basis_iter` gathers, for
every unique unordered pair of flattened primitive indices, the two indices
together with their contraction coefficients and primitives. -/
noncomputable def basis_iter (b : Basis) :
    List ((ℕ × ℝ × Primitive) × (ℕ × ℝ × Primitive)) :=
  (allpairs_indices b.num_primitives).map fun ij =>
    ((ij.1, b.coef ij.1, b.prim ij.1), (ij.2, b.coef ij.2, b.prim ij.2))

/-- Scatter a list of `(position, value)` entries into a matrix-as-function
(the embedding of `A.at[ii, jj].set(aij)`). -/
noncomputable def scatter (entries : List ((ℕ × ℕ) × ℝ)) (g : ℕ × ℕ → ℝ) : ℕ × ℕ → ℝ :=
  entries.foldl (fun f e => Function.update f e.1 e.2) g

/-- The scatter entries `aij = cl * cr * vmap(primitive_op)(lhs, rhs)` of
`integrate_dense`, keyed by the primitive index pair `(ii, jj)`. -/
noncomputable def dense_entries (b : Basis) (op : Primitive → Primitive → ℝ) :
    List ((ℕ × ℕ) × ℝ) :=
  (basis_iter b).map fun lr =>
    ((lr.1.1, lr.2.1), lr.1.2.1 * lr.2.2.1 * op lr.1.2.2 lr.2.2.2)

/-- The scattered lower-triangular matrix `A = zeros.at[ii, jj].set(aij)`
of `integrate_dense`. -/
noncomputable def dense_A (b : Basis) (op : Primitive → Primitive → ℝ) : ℕ × ℕ → ℝ :=
  scatter (dense_entries b op) fun _ => 0

/-- The symmetrized matrix `A + A^T - diag (diag A)` of `integrate_dense`. -/
noncomputable def dense_Asym (b : Basis) (op : Primitive → Primitive → ℝ) (i j : ℕ) : ℝ :=
  dense_A b op (i, j) + dense_A b op (j, i) - (if i = j then dense_A b op (i, i) else 0)

/-- The dense aggregation `integrate_dense`: evaluate the binary primitive
kernel over the unique unordered primitive pairs of `basis_iter`, weight by
the coefficient product, scatter into a `num_primitives × num_primitives`
matrix `A`, complete it as `A + A^T - diag A`, and reduce both axes to
orbital indices by segment-sum keyed by the owning orbital. -/
noncomputable def integrate_dense (b : Basis) (op : Primitive → Primitive → ℝ) :
    ℕ → ℕ → ℝ := fun x y =>
  ∑ jj ∈ Finset.range b.num_primitives,
    (if b.orb_of jj = x then
      ∑ ii ∈ Finset.range b.num_primitives,
        (if b.orb_of ii = y then dense_Asym b op ii jj else 0)
    else 0)

/-- `integrate = integrate_dense` in the source. -/
noncomputable def integrate (b : Basis) (op : Primitive → Primitive → ℝ) : ℕ → ℕ → ℝ :=
  integrate_dense b op

/-- The orbital overlap matrix `overlap_basis`. -/
noncomputable def overlap_basis (b : Basis) : ℕ → ℕ → ℝ :=
  integrate b overlap_primitives

/-- The orbital kinetic-energy matrix `kinetic_basis`. -/
noncomputable def kinetic_basis (b : Basis) : ℕ → ℕ → ℝ :=
  integrate b kinetic_primitives

/-- A shape-carrying tensor: `shape` lists the dimensions, `val` gives the
entry at a multi-index.  Used to embed the stacked (`vmap`-produced) output
of `nuclear_basis`. -/
structure Tensor where
  shape : List ℕ
  val : List ℕ → ℝ

/-- Transposition of a tensor reverses the axis order. -/
def Tensor.transpose (t : Tensor) : Tensor :=
  ⟨t.shape.reverse, fun ix => t.val ix.reverse⟩

/-- `nuclear_basis`: the source `vmap`s the per-nucleus integral over the
structure's atomic numbers and positions, producing a stacked
`num_atoms × num_orbitals × num_orbitals` tensor whose slice `n` is
`integrate` of the kernel `Z_n * nuclear_primitives( · , · , position_n)`. -/
noncomputable def nuclear_basis (b : Basis) : Tensor where
  shape := [b.structure'.atomic_number.length, b.num_orbitals, b.num_orbitals]
  val := fun ix =>
    match ix with
    | [n, x, y] =>
        integrate b
          (fun pl pr => (b.structure'.atomic_number.getD n 0 : ℝ) *
            nuclear_primitives pl pr (b.structure'.position.getD n fun _ => 0)) x y
    | _ => 0

lemma scatter_cons (e : (ℕ × ℕ) × ℝ) (es : List ((ℕ × ℕ) × ℝ)) (g : ℕ × ℕ → ℝ) :
    scatter (e :: es) g = scatter es (Function.update g e.1 e.2) := rfl

lemma scatter_not_mem (entries : List ((ℕ × ℕ) × ℝ)) (g : ℕ × ℕ → ℝ) (k : ℕ × ℕ)
    (hk : k ∉ entries.map Prod.fst) : scatter entries g k = g k := by
  induction entries generalizing g with
  | nil => rfl
  | cons e es ih =>
    simp only [List.map_cons, List.mem_cons, not_or] at hk
    rw [scatter_cons, ih _ hk.2, Function.update_noteq hk.1]

lemma scatter_mem (entries : List ((ℕ × ℕ) × ℝ)) :
    ∀ (g : ℕ × ℕ → ℝ) (k : ℕ × ℕ) (v : ℝ),
      (entries.map Prod.fst).Nodup → (k, v) ∈ entries → scatter entries g k = v := by
  induction entries with
  | nil =>
    intro g k v _ hm
    cases hm
  | cons e es ih =>
    intro g k v hnd hm
    simp only [List.map_cons, List.nodup_cons] at hnd
    rcases List.mem_cons.mp hm with h | h
    · have hk : k ∉ es.map Prod.fst := by
        rw [← h] at hnd
        exact hnd.1
      rw [scatter_cons, scatter_not_mem _ _ _ hk, ← h, Function.update_same]
    · rw [scatter_cons]
      exact ih _ _ _ hnd.2 h

lemma mem_allpairs {n i j : ℕ} : (i, j) ∈ allpairs_indices n ↔ i < n ∧ j ≤ i := by
  simp only [allpairs_indices, List.mem_flatMap, List.mem_map, List.mem_range, Prod.mk.injEq]
  constructor
  · rintro ⟨a, ha, c, hc, rfl, rfl⟩
    omega
  · rintro ⟨h1, h2⟩
    exact ⟨i, h1, j, by omega, rfl, rfl⟩

lemma nodup_allpairs (n : ℕ) : (allpairs_indices n).Nodup := by
  rw [allpairs_indices, List.nodup_flatMap]
  refine ⟨fun i _ => ?_, ?_⟩
  · exact (List.nodup_range _).map fun a c h => by injection h
  · have hnd : (List.range n).Pairwise (· ≠ ·) := (List.nodup_range n)
    refine hnd.imp fun {a c} hne => ?_
    intro x hxa hxc
    rcases List.mem_map.mp hxa with ⟨ja, _, rfl⟩
    rcases List.mem_map.mp hxc with ⟨jc, _, h⟩
    exact hne (congrArg Prod.fst h).symm

/-- The coefficient-weighted kernel value of one primitive pair; used to
state the characterization lemmas below. -/
noncomputable def pair_weight (b : Basis) (op : Primitive → Primitive → ℝ) (i j : ℕ) : ℝ :=
  b.coef i * b.coef j * op (b.prim i) (b.prim j)

lemma dense_A_eq (b : Basis) (op : Primitive → Primitive → ℝ) (i j : ℕ) :
    dense_A b op (i, j) =
      if j ≤ i ∧ i < b.num_primitives then pair_weight b op i j else 0 := by
  have hentries : dense_entries b op =
      (allpairs_indices b.num_primitives).map fun ij =>
        ((ij.1, ij.2), pair_weight b op ij.1 ij.2) := by
    rw [dense_entries, basis_iter, List.map_map]
    rfl
  have hkeys : (dense_entries b op).map Prod.fst = allpairs_indices b.num_primitives := by
    rw [hentries, List.map_map]
    have : (Prod.fst ∘ fun ij : ℕ × ℕ => ((ij.1, ij.2), pair_weight b op ij.1 ij.2)) =
        id := by
      funext ij
      rfl
    rw [this, List.map_id]
  by_cases h : j ≤ i ∧ i < b.num_primitives
  · rw [if_pos h]
    apply scatter_mem _ _ _ _ (hkeys ▸ nodup_allpairs _)
    rw [hentries]
    exact List.mem_map.mpr ⟨(i, j), mem_allpairs.mpr ⟨h.2, h.1⟩, rfl⟩
  · rw [if_neg h]
    rw [dense_A, scatter_not_mem]
    rw [hkeys]
    intro hmem
    exact h ⟨(mem_allpairs.mp hmem).2, (mem_allpairs.mp hmem).1⟩

lemma dense_Asym_eq (b : Basis) (op : Primitive → Primitive → ℝ) {i j : ℕ}
    (hi : i < b.num_primitives) (hj : j < b.num_primitives) :
    dense_Asym b op i j = pair_weight b op (max i j) (min i j) := by
  rcases lt_trichotomy i j with h | h | h
  · simp only [dense_Asym, dense_A_eq]
    rw [if_neg (show ¬(j ≤ i ∧ i < b.num_primitives) by omega),
      if_pos (show i ≤ j ∧ j < b.num_primitives from ⟨le_of_lt h, hj⟩),
      if_neg (show ¬i = j by omega),
      max_eq_right (le_of_lt h), min_eq_left (le_of_lt h)]
    ring
  · subst h
    simp only [dense_Asym, dense_A_eq]
    rw [if_pos (show i ≤ i ∧ i < b.num_primitives from ⟨le_refl i, hi⟩), if_pos trivial,
      max_self, min_self]
    ring
  · simp only [dense_Asym, dense_A_eq]
    rw [if_pos (show j ≤ i ∧ i < b.num_primitives from ⟨le_of_lt h, hi⟩),
      if_neg (show ¬(i ≤ j ∧ j < b.num_primitives) by omega),
      if_neg (show ¬i = j by omega),
      max_eq_left (le_of_lt h), min_eq_right (le_of_lt h)]
    ring

lemma integrate_dense_eq (b : Basis) (op : Primitive → Primitive → ℝ) (x y : ℕ) :
    integrate_dense b op x y =
      ∑ i ∈ Finset.range b.num_primitives, ∑ j ∈ Finset.range b.num_primitives,
        (if b.orb_of i = x ∧ b.orb_of j = y then
          pair_weight b op (max i j) (min i j) else 0) := by
  rw [integrate_dense]
  have step : ∀ jj, (if b.orb_of jj = x then
      ∑ ii ∈ Finset.range b.num_primitives,
        (if b.orb_of ii = y then dense_Asym b op ii jj else 0)
    else 0) =
      ∑ ii ∈ Finset.range b.num_primitives,
        (if b.orb_of jj = x ∧ b.orb_of ii = y then dense_Asym b op ii jj else 0) := by
    intro jj
    by_cases h : b.orb_of jj = x
    · simp only [h, if_true, true_and]
    · simp only [h, if_false, false_and, Finset.sum_const_zero]
  rw [Finset.sum_congr rfl fun jj _ => step jj]
  apply Finset.sum_congr rfl
  intro i hi
  apply Finset.sum_congr rfl
  intro j hj
  by_cases h : b.orb_of i = x ∧ b.orb_of j = y
  · rw [if_pos h, if_pos h,
      dense_Asym_eq b op (Finset.mem_range.mp hj) (Finset.mem_range.mp hi),
      max_comm j i, min_comm j i]
  · rw [if_neg h, if_neg h]

lemma integrate_dense_symm (b : Basis) (op : Primitive → Primitive → ℝ) (x y : ℕ) :
    integrate_dense b op x y = integrate_dense b op y x := by
  rw [integrate_dense_eq, integrate_dense_eq, Finset.sum_comm]
  apply Finset.sum_congr rfl
  intro i _
  apply Finset.sum_congr rfl
  intro j _
  by_cases h : b.orb_of i = y ∧ b.orb_of j = x
  · rw [if_pos (show b.orb_of j = x ∧ b.orb_of i = y from ⟨h.2, h.1⟩), if_pos h,
      max_comm j i, min_comm j i]
  · rw [if_neg (fun hc : b.orb_of j = x ∧ b.orb_of i = y => h ⟨hc.2, hc.1⟩), if_neg h]

lemma integrate_dense_smul (b : Basis) (op : Primitive → Primitive → ℝ) (z : ℝ) (x y : ℕ) :
    integrate_dense b (fun pl pr => z * op pl pr) x y = z * integrate_dense b op x y := by
  rw [integrate_dense_eq, integrate_dense_eq, Finset.mul_sum]
  apply Finset.sum_congr rfl
  intro i _
  rw [Finset.mul_sum]
  apply Finset.sum_congr rfl
  intro j _
  by_cases h : b.orb_of i = x ∧ b.orb_of j = y
  · rw [if_pos h, if_pos h, pair_weight, pair_weight]
    ring
  · rw [if_neg h, if_neg h, mul_zero]

/-- Claim C6: `integrate_dense` evaluates the kernel only over the unique
unordered primitive pairs of `basis_iter` (each kernel value appears with
its two primitives in the canonical descending index order), weights each
value by the product of the two contraction coefficients, scatters into a
`num_primitives × num_primitives` matrix completed as `A + A^T - diag A`
(so each diagonal entry is counted once), and reduces both axes by
segment-sum keyed by the owning orbital: entry `(x, y)` of the result is
the grouped sum, over ordered primitive pairs owned by `(x, y)`, of the
coefficient-weighted kernel evaluated at the pair sorted descendingly. -/
theorem C6_integrate_dense_closed_form (b : Basis) (op : Primitive → Primitive → ℝ)
    (x y : ℕ) :
    integrate_dense b op x y =
      ∑ i ∈ Finset.range b.num_primitives, ∑ j ∈ Finset.range b.num_primitives,
        (if b.orb_of i = x ∧ b.orb_of j = y then
          b.coef (max i j) * b.coef (min i j) *
            op (b.prim (max i j)) (b.prim (min i j))
        else 0) :=
  integrate_dense_eq b op x y

/-- Claim C8 (amended): the overlap and kinetic matrices are symmetric,
`S = S^T` and `T = T^T`; `nuclear_basis`, however, returns a stacked
tensor of one matrix per nucleus, and each per-nucleus slice is
symmetric. -/
theorem C8_symmetry (b : Basis) :
    (∀ x y, overlap_basis b x y = overlap_basis b y x) ∧
    (∀ x y, kinetic_basis b x y = kinetic_basis b y x) ∧
    (∀ n x y, (nuclear_basis b).val [n, x, y] = (nuclear_basis b).val [n, y, x]) := by
  refine ⟨fun x y => integrate_dense_symm b _ x y,
    fun x y => integrate_dense_symm b _ x y, fun n x y => ?_⟩
  exact integrate_dense_symm b _ x y

/-- A concrete one-orbital basis over a two-atom structure, used to exhibit
the stacked (three-dimensional) output of `nuclear_basis`. -/
noncomputable def basis_two_atoms : Basis where
  orbitals := [⟨[1], [⟨fun _ => 0, 1, fun _ => 0, 1⟩]⟩]
  structure' := ⟨[1, 1], [fun _ => 0, fun _ => 0]⟩

/-- Claim C8, as stated, is false on the code: `nuclear_basis` does not
return a symmetric matrix `V = V^T`; on a two-atom structure its output is
a `2 × 1 × 1` stacked tensor, which is not fixed by transposition (the
axis order reverses to `1 × 1 × 2`). -/
theorem C8_symmetry_counterexample :
    nuclear_basis basis_two_atoms ≠ (nuclear_basis basis_two_atoms).transpose := by
  intro h
  have hs := congrArg Tensor.shape h
  simp [nuclear_basis, Tensor.transpose, basis_two_atoms, Basis.num_orbitals] at hs

/-- Claim C1 (amended): `nuclear_basis` returns a stacked
`num_atoms × num_orbitals × num_orbitals` tensor whose slice `n` is the
symmetric per-nucleus contribution — the orbital-aggregated primitive
nuclear-attraction kernel weighted by the atomic number `Z_n` — so that
summing the slices over the nucleus axis yields the claimed symmetric
sum-over-nuclei matrix. -/
theorem C1_nuclear_stack (b : Basis) :
    (nuclear_basis b).shape =
      [b.structure'.atomic_number.length, b.num_orbitals, b.num_orbitals] ∧
    (∀ n x y, (nuclear_basis b).val [n, x, y] =
      (b.structure'.atomic_number.getD n 0 : ℝ) *
        integrate_dense b
          (fun pl pr => nuclear_primitives pl pr (b.structure'.position.getD n fun _ => 0))
          x y) ∧
    (∀ n x y, (nuclear_basis b).val [n, x, y] = (nuclear_basis b).val [n, y, x]) ∧
    (∀ x y,
      (∑ n ∈ Finset.range b.structure'.atomic_number.length,
        (nuclear_basis b).val [n, x, y]) =
      ∑ n ∈ Finset.range b.structure'.atomic_number.length,
        (b.structure'.atomic_number.getD n 0 : ℝ) *
          integrate_dense b
            (fun pl pr =>
              nuclear_primitives pl pr (b.structure'.position.getD n fun _ => 0))
            x y) := by
  have hval : ∀ n x y, (nuclear_basis b).val [n, x, y] =
      (b.structure'.atomic_number.getD n 0 : ℝ) *
        integrate_dense b
          (fun pl pr => nuclear_primitives pl pr (b.structure'.position.getD n fun _ => 0))
          x y := by
    intro n x y
    exact integrate_dense_smul b _ _ x y
  refine ⟨rfl, hval, fun n x y => ?_, fun x y => ?_⟩
  · exact integrate_dense_symm b _ x y
  · exact Finset.sum_congr rfl fun n _ => hval n x y

/-- Claim C1, as stated, is false on the code: `nuclear_basis` does not
return a single `num_orbitals × num_orbitals` matrix; on a two-atom
structure with one orbital its output has shape `[2, 1, 1]`, not the
`[num_orbitals, num_orbitals] = [1, 1]` of the claimed summed matrix. -/
theorem C1_nuclear_stack_counterexample :
    (nuclear_basis basis_two_atoms).shape ≠
      [basis_two_atoms.num_orbitals, basis_two_atoms.num_orbitals] := by
  intro h
  simp only [nuclear_basis, basis_two_atoms, Basis.num_orbitals] at h
  simp at h

/-- `gen_ijkl n`: the canonical orbital-index quadruples `(i, j, k, l)`
under the 8-fold permutation symmetry of the two-electron integral, with
`j ≤ i`, `k ≤ i` and `l` bounded by `j` if `i = k` else by `k`. -/
def gen_ijkl (n : ℕ) : List (ℕ × ℕ × ℕ × ℕ) :=
  (List.range n).flatMap fun i =>
    (List.range (i + 1)).flatMap fun j =>
      (List.range (i + 1)).flatMap fun k =>
        (List.range ((if i = k then j else k) + 1)).map fun l => (i, j, k, l)

lemma mem_gen_ijkl {n i j k l : ℕ} :
    (i, j, k, l) ∈ gen_ijkl n ↔
      i < n ∧ j ≤ i ∧ k ≤ i ∧ l ≤ (if i = k then j else k) := by
  simp only [gen_ijkl, List.mem_flatMap, List.mem_map, List.mem_range, Prod.mk.injEq]
  constructor
  · rintro ⟨a, ha, b, hb, c, hc, d, hd, rfl, rfl, rfl, rfl⟩
    refine ⟨ha, by omega, by omega, by omega⟩
  · rintro ⟨h1, h2, h3, h4⟩
    exact ⟨i, h1, j, by omega, k, by omega, l, by omega, rfl, rfl, rfl, rfl⟩

/-- The canonical representative of the 8-fold permutation class of a
quadruple: sort each pair descendingly, then order the two sorted pairs
lexicographically. -/
def canon_quad (q : ℕ × ℕ × ℕ × ℕ) : ℕ × ℕ × ℕ × ℕ :=
  if max q.2.2.1 q.2.2.2 < max q.1 q.2.1 ∨
      (max q.2.2.1 q.2.2.2 = max q.1 q.2.1 ∧ min q.2.2.1 q.2.2.2 ≤ min q.1 q.2.1) then
    (max q.1 q.2.1, min q.1 q.2.1, max q.2.2.1 q.2.2.2, min q.2.2.1 q.2.2.2)
  else
    (max q.2.2.1 q.2.2.2, min q.2.2.1 q.2.2.2, max q.1 q.2.1, min q.1 q.2.1)

/-- The 8 index patterns into which `eri_basis` scatters each unique value:
`(i,j,k,l)`, `(i,j,l,k)`, `(j,i,k,l)`, `(j,i,l,k)`, `(k,l,i,j)`,
`(k,l,j,i)`, `(l,k,i,j)`, `(l,k,j,i)`. -/
def images (q : ℕ × ℕ × ℕ × ℕ) : List (ℕ × ℕ × ℕ × ℕ) :=
  [(q.1, q.2.1, q.2.2.1, q.2.2.2), (q.1, q.2.1, q.2.2.2, q.2.2.1),
   (q.2.1, q.1, q.2.2.1, q.2.2.2), (q.2.1, q.1, q.2.2.2, q.2.2.1),
   (q.2.2.1, q.2.2.2, q.1, q.2.1), (q.2.2.1, q.2.2.2, q.2.1, q.1),
   (q.2.2.2, q.2.2.1, q.1, q.2.1), (q.2.2.2, q.2.2.1, q.2.1, q.1)]

lemma canon_swap12 (a b c d : ℕ) : canon_quad (b, a, c, d) = canon_quad (a, b, c, d) := by
  simp only [canon_quad, max_comm b a, min_comm b a]

lemma canon_swap34 (a b c d : ℕ) : canon_quad (a, b, d, c) = canon_quad (a, b, c, d) := by
  simp only [canon_quad, max_comm d c, min_comm d c]

lemma canon_swap_pairs (a b c d : ℕ) :
    canon_quad (c, d, a, b) = canon_quad (a, b, c, d) := by
  simp only [canon_quad]
  by_cases h1 : max a b < max c d ∨ (max a b = max c d ∧ min a b ≤ min c d)
  · rw [if_pos h1]
    by_cases h2 : max c d < max a b ∨ (max c d = max a b ∧ min c d ≤ min a b)
    · rw [if_pos h2]
      have e1 : max a b = max c d := by omega
      have e2 : min a b = min c d := by omega
      rw [e1, e2]
    · rw [if_neg h2]
  · rw [if_neg h1]
    by_cases h2 : max c d < max a b ∨ (max c d = max a b ∧ min c d ≤ min a b)
    · rw [if_pos h2]
    · exfalso
      omega

lemma canon_invariant (r : ℕ × ℕ × ℕ × ℕ) :
    ∀ p ∈ images r, canon_quad p = canon_quad r := by
  obtain ⟨a, b, c, d⟩ := r
  intro p hp
  simp only [images, List.mem_cons, List.not_mem_nil, or_false] at hp
  rcases hp with rfl | rfl | rfl | rfl | rfl | rfl | rfl | rfl
  · rfl
  · exact canon_swap34 a b c d
  · exact canon_swap12 a b c d
  · rw [show ((b, a, d, c) : ℕ × ℕ × ℕ × ℕ) = (b, a, d, c) from rfl,
      canon_swap12 a b d c, canon_swap34 a b c d]
  · exact canon_swap_pairs a b c d
  · rw [canon_swap_pairs b a c d, canon_swap12 a b c d]
  · rw [canon_swap_pairs a b d c, canon_swap34 a b c d]
  · rw [canon_swap_pairs b a d c, canon_swap12 a b d c, canon_swap34 a b c d]

lemma mem_images_canon (q : ℕ × ℕ × ℕ × ℕ) : q ∈ images (canon_quad q) := by
  obtain ⟨a, b, c, d⟩ := q
  rcases le_total a b with hab | hab <;> rcases le_total c d with hcd | hcd <;>
    · simp only [canon_quad]
      split_ifs with h <;>
        · simp only [images, List.mem_cons, Prod.mk.injEq]
          first
            | (left; omega)
            | (right; left; omega)
            | (right; right; left; omega)
            | (right; right; right; left; omega)
            | (right; right; right; right; left; omega)
            | (right; right; right; right; right; left; omega)
            | (right; right; right; right; right; right; left; omega)
            | (right; right; right; right; right; right; right; left; omega)

lemma canon_idem (q : ℕ × ℕ × ℕ × ℕ) : canon_quad (canon_quad q) = canon_quad q :=
  (canon_invariant (canon_quad q) q (mem_images_canon q)).symm

lemma canon_of_mem {n : ℕ} {q : ℕ × ℕ × ℕ × ℕ} (hq : q ∈ gen_ijkl n) :
    canon_quad q = q := by
  obtain ⟨i, j, k, l⟩ := q
  rw [mem_gen_ijkl] at hq
  obtain ⟨h1, h2, h3, h4⟩ := hq
  have hlk : l ≤ k := by
    by_cases hik : i = k
    · rw [if_pos hik] at h4
      omega
    · rwa [if_neg hik] at h4
  have hcond : max k l < max i j ∨ (max k l = max i j ∧ min k l ≤ min i j) := by
    by_cases hik : i = k
    · rw [if_pos hik] at h4
      right
      constructor <;> omega
    · left
      omega
  simp only [canon_quad]
  rw [if_pos hcond, max_eq_left h2, min_eq_right h2, max_eq_left hlk, min_eq_right hlk]

lemma mem_of_canon {n : ℕ} {q : ℕ × ℕ × ℕ × ℕ} (hc : canon_quad q = q) (hn : q.1 < n) :
    q ∈ gen_ijkl n := by
  obtain ⟨i, j, k, l⟩ := q
  simp only [canon_quad] at hc
  rw [mem_gen_ijkl]
  by_cases h : max k l < max i j ∨ (max k l = max i j ∧ min k l ≤ min i j)
  · rw [if_pos h] at hc
    simp only [Prod.mk.injEq] at hc
    obtain ⟨e1, e2, e3, e4⟩ := hc
    refine ⟨hn, by omega, by omega, ?_⟩
    by_cases hik : i = k
    · rw [if_pos hik]
      rcases h with h | h <;> omega
    · rw [if_neg hik]
      omega
  · rw [if_neg h] at hc
    simp only [Prod.mk.injEq] at hc
    exfalso
    omega

lemma length_flatMap_range {α : Type} (m : ℕ) (f : ℕ → List α) :
    ((List.range m).flatMap f).length = ∑ x ∈ Finset.range m, (f x).length := by
  induction m with
  | zero => rfl
  | succ m ih =>
    rw [List.range_succ, List.flatMap_append, List.length_append, ih,
      Finset.sum_range_succ]
    simp

lemma two_mul_sum_range_add_one (m : ℕ) :
    2 * (∑ k ∈ Finset.range m, (k + 1)) = m * (m + 1) := by
  induction m with
  | zero => rfl
  | succ m ih =>
    rw [Finset.sum_range_succ, Nat.mul_add, ih]
    ring

lemma gen_ijkl_zero : gen_ijkl 0 = [] := rfl

lemma gen_ijkl_succ (n : ℕ) :
    gen_ijkl (n + 1) = gen_ijkl n ++
      ((List.range (n + 1)).flatMap fun j =>
        (List.range (n + 1)).flatMap fun k =>
          (List.range ((if n = k then j else k) + 1)).map fun l => (n, j, k, l)) := by
  rw [gen_ijkl, gen_ijkl, List.range_succ, List.flatMap_append]
  simp only [List.flatMap_cons, List.flatMap_nil, List.append_nil]
  rw [List.range_succ]

lemma gen_ijkl_length_mul_eight (n : ℕ) :
    8 * (gen_ijkl n).length = n * (n + 1) * (n * (n + 1) + 2) := by
  induction n with
  | zero => rfl
  | succ n ih =>
    rw [gen_ijkl_succ, List.length_append]
    have hblock : 2 * ((List.range (n + 1)).flatMap fun j =>
        (List.range (n + 1)).flatMap fun k =>
          (List.range ((if n = k then j else k) + 1)).map fun l => (n, j, k, l)).length =
        (n + 1) * (n * (n + 1)) + (n + 1) * (n + 2) := by
      rw [length_flatMap_range]
      have hone : ∀ j, (((List.range (n + 1)).flatMap fun k =>
          (List.range ((if n = k then j else k) + 1)).map fun l => (n, j, k, l)).length) =
          (∑ k ∈ Finset.range n, (k + 1)) + (j + 1) := by
        intro j
        rw [length_flatMap_range, Finset.sum_range_succ]
        congr 1
        · apply Finset.sum_congr rfl
          intro k hk
          rw [List.length_map, List.length_range,
            if_neg (show ¬n = k by have := Finset.mem_range.mp hk; omega)]
        · rw [List.length_map, List.length_range, if_pos rfl]
      rw [Finset.sum_congr rfl fun j _ => hone j, Finset.sum_add_distrib,
        Finset.sum_const, Finset.card_range, smul_eq_mul]
      have hs1 := two_mul_sum_range_add_one n
      have hs2 := two_mul_sum_range_add_one (n + 1)
      have expand : 2 * ((n + 1) * (∑ k ∈ Finset.range n, (k + 1)) +
          ∑ j ∈ Finset.range (n + 1), (j + 1)) =
          (n + 1) * (2 * ∑ k ∈ Finset.range n, (k + 1)) +
            2 * ∑ j ∈ Finset.range (n + 1), (j + 1) := by ring
      rw [expand, hs1, hs2]
    have split : 8 * ((gen_ijkl n).length +
        ((List.range (n + 1)).flatMap fun j =>
          (List.range (n + 1)).flatMap fun k =>
            (List.range ((if n = k then j else k) + 1)).map fun l => (n, j, k, l)).length) =
        8 * (gen_ijkl n).length +
          4 * (2 * ((List.range (n + 1)).flatMap fun j =>
            (List.range (n + 1)).flatMap fun k =>
              (List.range ((if n = k then j else k) + 1)).map fun l =>
                (n, j, k, l)).length) := by ring
    rw [split, ih, hblock]
    ring

lemma block_fst {i : ℕ} {x : ℕ × ℕ × ℕ × ℕ}
    (hx : x ∈ (List.range (i + 1)).flatMap fun j =>
      (List.range (i + 1)).flatMap fun k =>
        (List.range ((if i = k then j else k) + 1)).map fun l => (i, j, k, l)) :
    x.1 = i := by
  rcases List.mem_flatMap.mp hx with ⟨j, _, hx⟩
  rcases List.mem_flatMap.mp hx with ⟨k, _, hx⟩
  rcases List.mem_map.mp hx with ⟨l, _, rfl⟩
  rfl

lemma block_snd {i j : ℕ} {x : ℕ × ℕ × ℕ × ℕ}
    (hx : x ∈ (List.range (i + 1)).flatMap fun k =>
      (List.range ((if i = k then j else k) + 1)).map fun l => (i, j, k, l)) :
    x.2.1 = j := by
  rcases List.mem_flatMap.mp hx with ⟨k, _, hx⟩
  rcases List.mem_map.mp hx with ⟨l, _, rfl⟩
  rfl

lemma nodup_gen_ijkl (n : ℕ) : (gen_ijkl n).Nodup := by
  rw [gen_ijkl, List.nodup_flatMap]
  refine ⟨fun i _ => ?_, ?_⟩
  · rw [List.nodup_flatMap]
    refine ⟨fun j _ => ?_, ?_⟩
    · rw [List.nodup_flatMap]
      refine ⟨fun k _ => ?_, ?_⟩
      · exact (List.nodup_range _).map fun x y h => by simpa using h
      · have hnd : (List.range (i + 1)).Pairwise (· ≠ ·) := List.nodup_range _
        refine hnd.imp fun {k1 k2} hne => ?_
        intro x hx1 hx2
        rcases List.mem_map.mp hx1 with ⟨l1, _, rfl⟩
        rcases List.mem_map.mp hx2 with ⟨l2, _, he⟩
        exact hne (congrArg (fun t : ℕ × ℕ × ℕ × ℕ => t.2.2.1) he).symm
    · have hnd : (List.range (i + 1)).Pairwise (· ≠ ·) := List.nodup_range _
      refine hnd.imp fun {j1 j2} hne => ?_
      intro x hx1 hx2
      exact hne ((block_snd hx1).symm.trans (block_snd hx2))
  · have hnd : (List.range n).Pairwise (· ≠ ·) := List.nodup_range _
    refine hnd.imp fun {i1 i2} hne => ?_
    intro x hx1 hx2
    exact hne ((block_fst hx1).symm.trans (block_fst hx2))

/-- Claim C9: `gen_ijkl n` yields pairwise-distinct quadruples that are
exactly the canonical representatives of the 8-fold permutation-symmetry
classes over `[0, n)^4` (membership holds precisely for the fixed points of
`canon_quad` with first coordinate below `n`), its length is `M*(M+1)/2`
with `M = n*(n+1)/2`, and every index tuple of the `n^4` tensor is among
the 8 symmetry images of some yielded quadruple. -/
theorem C9_gen_ijkl_canonical (n : ℕ) :
    (gen_ijkl n).Nodup ∧
    (∀ q : ℕ × ℕ × ℕ × ℕ, q ∈ gen_ijkl n ↔ (canon_quad q = q ∧ q.1 < n)) ∧
    (gen_ijkl n).length = (n * (n + 1) / 2) * (n * (n + 1) / 2 + 1) / 2 ∧
    (∀ a b c d : ℕ, a < n → b < n → c < n → d < n →
      ∃ q ∈ gen_ijkl n, (a, b, c, d) ∈ images q) := by
  refine ⟨nodup_gen_ijkl n, ?_, ?_, ?_⟩
  · intro q
    constructor
    · intro hq
      refine ⟨canon_of_mem hq, ?_⟩
      obtain ⟨i, j, k, l⟩ := q
      exact (mem_gen_ijkl.mp hq).1
    · rintro ⟨hc, hn⟩
      exact mem_of_canon hc hn
  · have h8 := gen_ijkl_length_mul_eight n
    obtain ⟨m, hm⟩ := Nat.even_mul_succ_self n
    rw [hm] at h8 ⊢
    have hm2 : (m + m) / 2 = m := by omega
    rw [hm2]
    have : 8 * (gen_ijkl n).length = 4 * (m * (m + 1)) := by
      rw [h8]
      ring
    omega
  · intro a b c d ha hb hc hd
    refine ⟨canon_quad (a, b, c, d), ?_, mem_images_canon (a, b, c, d)⟩
    apply mem_of_canon (canon_idem (a, b, c, d))
    simp only [canon_quad]
    split_ifs <;> simp only [] <;> omega

theorem C9_gen_ijkl_canonical_witness :
    ((0 : ℕ) < 2 ∧ (1 : ℕ) < 2) ∧
      ∃ q ∈ gen_ijkl 2, ((0 : ℕ), (1 : ℕ), (0 : ℕ), (1 : ℕ)) ∈ images q :=
  ⟨⟨by decide, by decide⟩,
    (C9_gen_ijkl_canonical 2).2.2.2 0 1 0 1 (by decide) (by decide) (by decide) (by decide)⟩

/-- Semantics of `jax.ops.segment_sum`: entry `s` of the result is the sum
of the data values whose segment id equals `s`. -/
noncomputable def segment_sum (ids : List ℕ) (vals : List ℝ) (num_segments : ℕ) : List ℝ :=
  (List.range num_segments).map fun s =>
    ((((ids.zip vals).filter fun p => decide (p.1 = s))).map Prod.snd).sum

/-- The cumulative primitive offset of orbital `o` (`np.cumsum` of the
per-orbital primitive counts, with a leading `0`). -/
def Basis.offset (b : Basis) (o : ℕ) : ℕ :=
  ((b.orbitals.take o).map fun orb => orb.primitives.length).sum

/-- The flattened primitive indices `range(offset[o], offset[o+1])` owned by
orbital `o`. -/
def Basis.orb_range (b : Basis) (o : ℕ) : List ℕ :=
  (List.range ((b.orbitals.getD o ⟨[], []⟩).primitives.length)).map fun t => b.offset o + t

/-- The primitive-index mesh of an orbital quadruple: the cartesian product
of the four orbital primitive ranges (`itertools.product`). -/
def quad_mesh (b : Basis) (q : ℕ × ℕ × ℕ × ℕ) : List (ℕ × ℕ × ℕ × ℕ) :=
  (b.orb_range q.1).flatMap fun p1 =>
    (b.orb_range q.2.1).flatMap fun p2 =>
      (b.orb_range q.2.2.1).flatMap fun p3 =>
        (b.orb_range q.2.2.2).map fun p4 => (p1, p2, p3, p4)

/-- The contraction-coefficient product times the ERI primitive kernel for
one flattened primitive-index quadruple (`cijkl * vmap_eri_primitives`). -/
noncomputable def eri_tuple_val (b : Basis) (t : ℕ × ℕ × ℕ × ℕ) : ℝ :=
  b.coef t.1 * b.coef t.2.1 * b.coef t.2.2.1 * b.coef t.2.2.2 *
    eri_primitives (b.prim t.1) (b.prim t.2.1) (b.prim t.2.2.1) (b.prim t.2.2.2)

/-- The flat `(batch_id, value)` list built by the enumeration loop of
`eri_basis_sparse`: quadruple number `count` contributes one entry per
element of its primitive mesh, all tagged `count`. -/
noncomputable def sparse_flat (b : Basis) : List (ℕ × ℕ × ℕ × ℕ) → ℕ → List (ℕ × ℝ)
  | [], _ => []
  | q :: rest, count =>
      ((quad_mesh b q).map fun t => (count, eri_tuple_val b t)) ++
        sparse_flat b rest (count + 1)

/-- Evaluation of a list of orbital quadruples: the flat weighted kernel
values are segment-summed by their batch id, one segment per quadruple. -/
noncomputable def sparse_eval (b : Basis) (quads : List (ℕ × ℕ × ℕ × ℕ)) : List ℝ :=
  segment_sum ((sparse_flat b quads 0).map Prod.fst)
    ((sparse_flat b quads 0).map Prod.snd) quads.length

/-- `eri_basis_sparse`: one batch covering all canonical quadruples. -/
noncomputable def eri_basis_sparse (b : Basis) : List ℝ :=
  sparse_eval b (gen_ijkl b.num_orbitals)

/-- Chunking of a list into consecutive batches of `bs` elements (the
semantics of `more_itertools.batched` for `bs ≥ 1`). -/
def chunk_list {α : Type} (bs : ℕ) : List α → List (List α)
  | [] => []
  | x :: xs => (x :: xs.take (bs - 1)) :: chunk_list bs (xs.drop (bs - 1))
  termination_by l => l.length
  decreasing_by
    simp only [List.length_drop, List.length_cons]
    omega

/-- `eri_basis_sparse_batched`: evaluate the canonical quadruples in
fixed-size batches and concatenate (`jnp.hstack`) the per-batch results. -/
noncomputable def eri_basis_sparse_batched (b : Basis) (batch_size : ℕ) : List ℝ :=
  ((chunk_list batch_size (gen_ijkl b.num_orbitals)).map fun chunk =>
    sparse_eval b chunk).flatten

/-- The per-orbital-quadruple value: the sum over the quadruple's primitive
mesh of the coefficient-weighted ERI kernel. -/
noncomputable def eri_orbital_val (b : Basis) (q : ℕ × ℕ × ℕ × ℕ) : ℝ :=
  ((quad_mesh b q).map fun t => eri_tuple_val b t).sum

lemma sparse_flat_id_ge (b : Basis) :
    ∀ (quads : List (ℕ × ℕ × ℕ × ℕ)) (c : ℕ) (p : ℕ × ℝ),
      p ∈ sparse_flat b quads c → c ≤ p.1 := by
  intro quads
  induction quads with
  | nil =>
    intro c p hp
    cases hp
  | cons q rest ih =>
    intro c p hp
    rw [sparse_flat, List.mem_append] at hp
    rcases hp with hp | hp
    · rcases List.mem_map.mp hp with ⟨t, _, rfl⟩
      exact le_refl c
    · exact le_trans (Nat.le_succ c) (ih (c + 1) p hp)

lemma sum_filter_flat (b : Basis) (quads : List (ℕ × ℕ × ℕ × ℕ)) (c s : ℕ) :
    ((((sparse_flat b quads c).map Prod.fst).zip
        ((sparse_flat b quads c).map Prod.snd)).filter fun p => decide (p.1 = s)) =
      (sparse_flat b quads c).filter fun p => decide (p.1 = s) := by
  rw [List.zip_map']
  have hid : (fun a : ℕ × ℝ => (a.1, a.2)) = fun a => a := funext fun a => rfl
  rw [hid, List.map_id']

lemma sparse_eval_segment (b : Basis) :
    ∀ (quads : List (ℕ × ℕ × ℕ × ℕ)) (c : ℕ),
      (List.range quads.length).map (fun m =>
        (((sparse_flat b quads c).filter fun p => decide (p.1 = c + m)).map Prod.snd).sum) =
      quads.map (eri_orbital_val b) := by
  intro quads
  induction quads with
  | nil =>
    intro c
    rfl
  | cons q rest ih =>
    intro c
    rw [List.length_cons, List.range_succ_eq_map, List.map_cons, List.map_map, List.map_cons]
    congr 1
    · rw [sparse_flat, List.filter_append, List.filter_map, List.map_append]
      have hall : ((fun p : ℕ × ℝ => decide (p.1 = c + 0)) ∘
          fun t => ((c, eri_tuple_val b t) : ℕ × ℝ)) = fun _ => true := by
        funext t
        simp
      have hrest : ((sparse_flat b rest (c + 1)).filter fun p => decide (p.1 = c + 0)) = [] := by
        rw [List.filter_eq_nil_iff]
        intro p hp
        have := sparse_flat_id_ge b rest (c + 1) p hp
        simp only [decide_eq_true_eq]
        omega
      rw [hall, List.filter_true, hrest, List.map_nil, List.append_nil, List.map_map]
      rfl
    · have hmap : ∀ m, (((sparse_flat b (q :: rest) c).filter fun p =>
          decide (p.1 = c + Nat.succ m)).map Prod.snd).sum =
          (((sparse_flat b rest (c + 1)).filter fun p =>
            decide (p.1 = (c + 1) + m)).map Prod.snd).sum := by
        intro m
        rw [sparse_flat, List.filter_append, List.filter_map]
        have hnone : ((fun p : ℕ × ℝ => decide (p.1 = c + Nat.succ m)) ∘
            fun t => ((c, eri_tuple_val b t) : ℕ × ℝ)) = fun _ => false := by
          funext t
          simp only [Function.comp_apply, decide_eq_false_iff_not]
          omega
        rw [hnone, List.filter_false, List.map_nil, List.map_append, List.map_nil,
          List.sum_append, List.sum_nil, zero_add,
          show c + Nat.succ m = c + 1 + m by omega]
      rw [← ih (c + 1)]
      apply List.map_congr_left
      intro m _
      simp only [Function.comp_apply]
      exact hmap m

lemma sparse_eval_eq (b : Basis) (quads : List (ℕ × ℕ × ℕ × ℕ)) :
    sparse_eval b quads = quads.map (eri_orbital_val b) := by
  rw [sparse_eval, segment_sum, ← sparse_eval_segment b quads 0]
  apply List.map_congr_left
  intro s _
  rw [sum_filter_flat, Nat.zero_add]

lemma chunk_flatten {α : Type} (bs : ℕ) (l : List α) : (chunk_list bs l).flatten = l := by
  generalize hn : l.length = n
  induction n using Nat.strong_induction_on generalizing l with
  | _ n ih =>
    match l, hn with
    | [], _ => simp [chunk_list]
    | x :: xs, hn =>
      rw [chunk_list, List.flatten_cons,
        ih (xs.drop (bs - 1)).length (by rw [← hn]; simp; omega) (xs.drop (bs - 1)) rfl,
        List.cons_append, List.take_append_drop]

lemma batched_eq_map (b : Basis) (batch_size : ℕ) :
    eri_basis_sparse_batched b batch_size =
      (gen_ijkl b.num_orbitals).map (eri_orbital_val b) := by
  rw [eri_basis_sparse_batched,
    List.map_congr_left fun chunk _ => sparse_eval_eq b chunk,
    ← List.map_flatten, chunk_flatten]

/-- Claim C2: for every batch size `≥ 1`, `eri_basis_sparse_batched`
produces exactly the same vector of unique ERI values as
`eri_basis_sparse` (a single batch covering the whole basis): batching is
a memory-management detail with no effect on the result. -/
theorem C2_batched_refines_sparse (b : Basis) (batch_size : ℕ) (hbs : 1 ≤ batch_size) :
    eri_basis_sparse_batched b batch_size = eri_basis_sparse b := by
  rw [batched_eq_map, eri_basis_sparse, sparse_eval_eq]

theorem C2_batched_refines_sparse_witness :
    1 ≤ 1 ∧ eri_basis_sparse_batched basis_two_atoms 1 = eri_basis_sparse basis_two_atoms :=
  ⟨by norm_num, C2_batched_refines_sparse basis_two_atoms 1 (by norm_num)⟩

/-- Scatter pattern `[ii, jj, kk, ll]` of `eri_basis`. -/
def perm1 (q : ℕ × ℕ × ℕ × ℕ) : ℕ × ℕ × ℕ × ℕ := (q.1, q.2.1, q.2.2.1, q.2.2.2)

/-- Scatter pattern `[ii, jj, ll, kk]` of `eri_basis`. -/
def perm2 (q : ℕ × ℕ × ℕ × ℕ) : ℕ × ℕ × ℕ × ℕ := (q.1, q.2.1, q.2.2.2, q.2.2.1)

/-- Scatter pattern `[jj, ii, kk, ll]` of `eri_basis`. -/
def perm3 (q : ℕ × ℕ × ℕ × ℕ) : ℕ × ℕ × ℕ × ℕ := (q.2.1, q.1, q.2.2.1, q.2.2.2)

/-- Scatter pattern `[jj, ii, ll, kk]` of `eri_basis`. -/
def perm4 (q : ℕ × ℕ × ℕ × ℕ) : ℕ × ℕ × ℕ × ℕ := (q.2.1, q.1, q.2.2.2, q.2.2.1)

/-- Scatter pattern `[kk, ll, ii, jj]` of `eri_basis`. -/
def perm5 (q : ℕ × ℕ × ℕ × ℕ) : ℕ × ℕ × ℕ × ℕ := (q.2.2.1, q.2.2.2, q.1, q.2.1)

/-- Scatter pattern `[kk, ll, jj, ii]` of `eri_basis`. -/
def perm6 (q : ℕ × ℕ × ℕ × ℕ) : ℕ × ℕ × ℕ × ℕ := (q.2.2.1, q.2.2.2, q.2.1, q.1)

/-- Scatter pattern `[ll, kk, ii, jj]` of `eri_basis`. -/
def perm7 (q : ℕ × ℕ × ℕ × ℕ) : ℕ × ℕ × ℕ × ℕ := (q.2.2.2, q.2.2.1, q.1, q.2.1)

/-- Scatter pattern `[ll, kk, jj, ii]` of `eri_basis`. -/
def perm8 (q : ℕ × ℕ × ℕ × ℕ) : ℕ × ℕ × ℕ × ℕ := (q.2.2.2, q.2.2.1, q.2.1, q.1)

lemma images_eq_perms (q : ℕ × ℕ × ℕ × ℕ) :
    images q = [perm1 q, perm2 q, perm3 q, perm4 q, perm5 q, perm6 q, perm7 q, perm8 q] :=
  rfl

/-- One vectorized scatter `eri_dense.at[σ(quads)].set(unique_eris)`:
each `(quadruple, value)` pair writes its value at the permuted position. -/
noncomputable def scatter4 (pairs : List ((ℕ × ℕ × ℕ × ℕ) × ℝ))
    (σ : (ℕ × ℕ × ℕ × ℕ) → (ℕ × ℕ × ℕ × ℕ)) (g : (ℕ × ℕ × ℕ × ℕ) → ℝ) :
    (ℕ × ℕ × ℕ × ℕ) → ℝ :=
  pairs.foldl (fun f qv => Function.update f (σ qv.1) qv.2) g

/-- The uninitialized tensor produced by `jnp.empty_like`: entries carry
arbitrary garbage values, modelled by a fixed asymmetric function. -/
noncomputable def empty_tensor4 : (ℕ × ℕ × ℕ × ℕ) → ℝ := fun q =>
  (q.1 : ℝ) + 2 * q.2.1 + 3 * q.2.2.1 + 5 * q.2.2.2 + 7

/-- `eri_basis`: the unique ERI values of `eri_basis_sparse_batched` (with
the default batch size `1024 * 1024`) are scattered into the 8
symmetry-equivalent index positions of each canonical quadruple, starting
from an uninitialized dense tensor. -/
noncomputable def eri_basis (b : Basis) : (ℕ × ℕ × ℕ × ℕ) → ℝ :=
  let pairs := (gen_ijkl b.num_orbitals).zip (eri_basis_sparse_batched b (1024 * 1024))
  scatter4 pairs perm8 (scatter4 pairs perm7 (scatter4 pairs perm6 (scatter4 pairs perm5
    (scatter4 pairs perm4 (scatter4 pairs perm3 (scatter4 pairs perm2
      (scatter4 pairs perm1 empty_tensor4)))))))

lemma scatter4_cons (qv : (ℕ × ℕ × ℕ × ℕ) × ℝ) (rest : List ((ℕ × ℕ × ℕ × ℕ) × ℝ))
    (σ : (ℕ × ℕ × ℕ × ℕ) → (ℕ × ℕ × ℕ × ℕ)) (g : (ℕ × ℕ × ℕ × ℕ) → ℝ) :
    scatter4 (qv :: rest) σ g = scatter4 rest σ (Function.update g (σ qv.1) qv.2) :=
  rfl

lemma scatter4_or (v : (ℕ × ℕ × ℕ × ℕ) → ℝ) (σ : (ℕ × ℕ × ℕ × ℕ) → (ℕ × ℕ × ℕ × ℕ))
    (hσ : ∀ p, canon_quad (σ p) = canon_quad p) :
    ∀ (pairs : List ((ℕ × ℕ × ℕ × ℕ) × ℝ)),
      (∀ qv ∈ pairs, canon_quad qv.1 = qv.1 ∧ qv.2 = v qv.1) →
      ∀ (g : (ℕ × ℕ × ℕ × ℕ) → ℝ) (p : ℕ × ℕ × ℕ × ℕ),
        scatter4 pairs σ g p = g p ∨ scatter4 pairs σ g p = v (canon_quad p) := by
  intro pairs
  induction pairs with
  | nil =>
    intro _ g p
    left
    rfl
  | cons qv rest ih =>
    intro hp g p
    rw [scatter4_cons]
    rcases ih (fun x hx => hp x (List.mem_cons_of_mem qv hx))
        (Function.update g (σ qv.1) qv.2) p with h | h
    · rw [h, Function.update_apply]
      by_cases he : p = σ qv.1
      · right
        rw [if_pos he, (hp qv (List.mem_cons_self qv rest)).2, he, hσ,
          (hp qv (List.mem_cons_self qv rest)).1]
      · left
        rw [if_neg he]
    · right
      exact h

lemma scatter4_keep (v : (ℕ × ℕ × ℕ × ℕ) → ℝ) (σ : (ℕ × ℕ × ℕ × ℕ) → (ℕ × ℕ × ℕ × ℕ))
    (hσ : ∀ p, canon_quad (σ p) = canon_quad p)
    (pairs : List ((ℕ × ℕ × ℕ × ℕ) × ℝ))
    (hp : ∀ qv ∈ pairs, canon_quad qv.1 = qv.1 ∧ qv.2 = v qv.1)
    (g : (ℕ × ℕ × ℕ × ℕ) → ℝ) (p : ℕ × ℕ × ℕ × ℕ)
    (hg : g p = v (canon_quad p)) : scatter4 pairs σ g p = v (canon_quad p) := by
  rcases scatter4_or v σ hσ pairs hp g p with h | h
  · rw [h, hg]
  · exact h

lemma scatter4_write (v : (ℕ × ℕ × ℕ × ℕ) → ℝ) (σ : (ℕ × ℕ × ℕ × ℕ) → (ℕ × ℕ × ℕ × ℕ))
    (hσ : ∀ p, canon_quad (σ p) = canon_quad p) :
    ∀ (pairs : List ((ℕ × ℕ × ℕ × ℕ) × ℝ)),
      (∀ qv ∈ pairs, canon_quad qv.1 = qv.1 ∧ qv.2 = v qv.1) →
      ∀ (g : (ℕ × ℕ × ℕ × ℕ) → ℝ) (p : ℕ × ℕ × ℕ × ℕ),
        (∃ qv ∈ pairs, σ qv.1 = p) → scatter4 pairs σ g p = v (canon_quad p) := by
  intro pairs
  induction pairs with
  | nil =>
    rintro _ g p ⟨qv, hqv, _⟩
    cases hqv
  | cons qv rest ih =>
    rintro hp g p ⟨qw, hqw, hqwp⟩
    rw [scatter4_cons]
    rcases List.mem_cons.mp hqw with h | h
    · subst h
      apply scatter4_keep v σ hσ rest (fun x hx => hp x (List.mem_cons_of_mem qw hx))
      rw [← hqwp, Function.update_same, hσ, (hp qw (List.mem_cons_self qw rest)).1]
      exact (hp qw (List.mem_cons_self qw rest)).2
    · exact ih (fun x hx => hp x (List.mem_cons_of_mem qv hx)) _ p ⟨qw, h, hqwp⟩

lemma canon_fst_lt {n a b c d : ℕ} (h1 : a < n) (h2 : b < n)
    (h3 : c < n) (h4 : d < n) : (canon_quad (a, b, c, d)).1 < n := by
  simp only [canon_quad]
  split_ifs <;> dsimp only <;> omega

lemma eri_basis_eq_canon (b : Basis) {i j k l : ℕ}
    (hi : i < b.num_orbitals) (hj : j < b.num_orbitals)
    (hk : k < b.num_orbitals) (hl : l < b.num_orbitals) :
    eri_basis b (i, j, k, l) = eri_orbital_val b (canon_quad (i, j, k, l)) := by
  have hperm1 : ∀ p, canon_quad (perm1 p) = canon_quad p := fun ⟨a, b', c, d⟩ => rfl
  have hperm2 : ∀ p, canon_quad (perm2 p) = canon_quad p := fun ⟨a, b', c, d⟩ =>
    canon_swap34 a b' c d
  have hperm3 : ∀ p, canon_quad (perm3 p) = canon_quad p := fun ⟨a, b', c, d⟩ =>
    canon_swap12 a b' c d
  have hperm4 : ∀ p, canon_quad (perm4 p) = canon_quad p := fun ⟨a, b', c, d⟩ =>
    canon_invariant (a, b', c, d) _ (by simp [images, perm4])
  have hperm5 : ∀ p, canon_quad (perm5 p) = canon_quad p := fun ⟨a, b', c, d⟩ =>
    canon_swap_pairs a b' c d
  have hperm6 : ∀ p, canon_quad (perm6 p) = canon_quad p := fun ⟨a, b', c, d⟩ =>
    canon_invariant (a, b', c, d) _ (by simp [images, perm6])
  have hperm7 : ∀ p, canon_quad (perm7 p) = canon_quad p := fun ⟨a, b', c, d⟩ =>
    canon_invariant (a, b', c, d) _ (by simp [images, perm7])
  have hperm8 : ∀ p, canon_quad (perm8 p) = canon_quad p := fun ⟨a, b', c, d⟩ =>
    canon_invariant (a, b', c, d) _ (by simp [images, perm8])
  set v := eri_orbital_val b with hv
  set quads := gen_ijkl b.num_orbitals with hquads
  have hpairs : quads.zip (eri_basis_sparse_batched b (1024 * 1024)) =
      quads.map fun q => (q, v q) := by
    rw [batched_eq_map, ← hquads, ← List.zip_map' (fun a => a) v quads, List.map_id']
  have hp : ∀ qv ∈ quads.map fun q => (q, v q), canon_quad qv.1 = qv.1 ∧ qv.2 = v qv.1 := by
    intro qv hqv
    rcases List.mem_map.mp hqv with ⟨q, hq, rfl⟩
    exact ⟨canon_of_mem hq, rfl⟩
  have hcq : canon_quad (i, j, k, l) ∈ quads := by
    apply mem_of_canon (canon_idem (i, j, k, l))
    exact canon_fst_lt hi hj hk hl
  have hcqv : (canon_quad (i, j, k, l), v (canon_quad (i, j, k, l))) ∈
      quads.map fun q => (q, v q) :=
    List.mem_map.mpr ⟨canon_quad (i, j, k, l), hcq, rfl⟩
  have himg : (i, j, k, l) ∈ images (canon_quad (i, j, k, l)) := mem_images_canon _
  rw [images_eq_perms] at himg
  rw [eri_basis]
  simp only [← hquads, hpairs]
  simp only [List.mem_cons, List.not_mem_nil, or_false] at himg
  set P := quads.map fun q => (q, v q) with hP
  have hgood : canon_quad (canon_quad (i, j, k, l)) = canon_quad (i, j, k, l) :=
    canon_idem _
  rcases himg with he | he | he | he | he | he | he | he
  · apply scatter4_keep v perm8 hperm8 P hp _ _
    apply scatter4_keep v perm7 hperm7 P hp _ _
    apply scatter4_keep v perm6 hperm6 P hp _ _
    apply scatter4_keep v perm5 hperm5 P hp _ _
    apply scatter4_keep v perm4 hperm4 P hp _ _
    apply scatter4_keep v perm3 hperm3 P hp _ _
    apply scatter4_keep v perm2 hperm2 P hp _ _
    rw [scatter4_write v perm1 hperm1 P hp _ _ ⟨_, hcqv, he.symm⟩]
  · apply scatter4_keep v perm8 hperm8 P hp _ _
    apply scatter4_keep v perm7 hperm7 P hp _ _
    apply scatter4_keep v perm6 hperm6 P hp _ _
    apply scatter4_keep v perm5 hperm5 P hp _ _
    apply scatter4_keep v perm4 hperm4 P hp _ _
    apply scatter4_keep v perm3 hperm3 P hp _ _
    rw [scatter4_write v perm2 hperm2 P hp _ _ ⟨_, hcqv, he.symm⟩]
  · apply scatter4_keep v perm8 hperm8 P hp _ _
    apply scatter4_keep v perm7 hperm7 P hp _ _
    apply scatter4_keep v perm6 hperm6 P hp _ _
    apply scatter4_keep v perm5 hperm5 P hp _ _
    apply scatter4_keep v perm4 hperm4 P hp _ _
    rw [scatter4_write v perm3 hperm3 P hp _ _ ⟨_, hcqv, he.symm⟩]
  · apply scatter4_keep v perm8 hperm8 P hp _ _
    apply scatter4_keep v perm7 hperm7 P hp _ _
    apply scatter4_keep v perm6 hperm6 P hp _ _
    apply scatter4_keep v perm5 hperm5 P hp _ _
    rw [scatter4_write v perm4 hperm4 P hp _ _ ⟨_, hcqv, he.symm⟩]
  · apply scatter4_keep v perm8 hperm8 P hp _ _
    apply scatter4_keep v perm7 hperm7 P hp _ _
    apply scatter4_keep v perm6 hperm6 P hp _ _
    rw [scatter4_write v perm5 hperm5 P hp _ _ ⟨_, hcqv, he.symm⟩]
  · apply scatter4_keep v perm8 hperm8 P hp _ _
    apply scatter4_keep v perm7 hperm7 P hp _ _
    rw [scatter4_write v perm6 hperm6 P hp _ _ ⟨_, hcqv, he.symm⟩]
  · apply scatter4_keep v perm8 hperm8 P hp _ _
    rw [scatter4_write v perm7 hperm7 P hp _ _ ⟨_, hcqv, he.symm⟩]
  · rw [scatter4_write v perm8 hperm8 P hp _ _ ⟨_, hcqv, he.symm⟩]

/-- Claim C3: the dense 4-index tensor built by `eri_basis` obeys the full
8-fold permutation symmetry `G[i,j,k,l] = G[j,i,k,l] = G[i,j,l,k] =
G[k,l,i,j]` for all valid orbital indices. -/
theorem C3_eri_dense_symmetry (b : Basis) (i j k l : ℕ)
    (hi : i < b.num_orbitals) (hj : j < b.num_orbitals)
    (hk : k < b.num_orbitals) (hl : l < b.num_orbitals) :
    eri_basis b (i, j, k, l) = eri_basis b (j, i, k, l) ∧
    eri_basis b (i, j, k, l) = eri_basis b (i, j, l, k) ∧
    eri_basis b (i, j, k, l) = eri_basis b (k, l, i, j) := by
  refine ⟨?_, ?_, ?_⟩
  · rw [eri_basis_eq_canon b hi hj hk hl, eri_basis_eq_canon b hj hi hk hl]
    exact congrArg (eri_orbital_val b) (canon_swap12 i j k l).symm
  · rw [eri_basis_eq_canon b hi hj hk hl, eri_basis_eq_canon b hi hj hl hk]
    exact congrArg (eri_orbital_val b) (canon_swap34 i j k l).symm
  · rw [eri_basis_eq_canon b hi hj hk hl, eri_basis_eq_canon b hk hl hi hj]
    exact congrArg (eri_orbital_val b) (canon_swap_pairs i j k l).symm

theorem C3_eri_dense_symmetry_witness :
    (0 < basis_two_atoms.num_orbitals) ∧
      eri_basis basis_two_atoms (0, 0, 0, 0) = eri_basis basis_two_atoms (0, 0, 0, 0) :=
  ⟨by decide,
    (C3_eri_dense_symmetry basis_two_atoms 0 0 0 0 (by decide) (by decide) (by decide)
      (by decide)).1⟩

end Mess
